import Mathlib

/-!
Verification development for the home-server HVAC controller.

The definitions below are a shallow embedding of the Rust sources:
  * `models/src/hvac_request.rs`   — `HvacRequest`
  * `models/src/thermostatd.rs`    — `TimedOverride`, `OneshotOverride`, `OneshotOrdering`
  * `thermostatd/src/main.rs`      — the `channels` topic constants and `CommonState`
  * `thermostatd/src/scripting.rs` — the evaluation block of `run_script_loop`
    (lines 123–199) and the `timed_program` helper
  * `thermostatd/src/mqtt.rs`      — `publish_timed_override`, `publish_oneshot_override`
  * `src/hvac/probe.rs`            — `Probe::update`
  * `src/hvac/mod.rs`              — the per-probe body of the `probe_historian` task
  * `src/mqtt/handler.rs`          — the topic-routing trie (`Router`, `insert`, `dispatch`)

Modelling conventions:
  * `f64`/`f32` temperature values are modelled as `Option ℚ`, with `none`
    standing for NaN (the only value on which `partial_cmp` returns `None`);
    JSON-decoded setpoints are plain rationals.
  * `DateTime<Utc>` / `Instant` values are modelled as integer timestamps
    (epoch milliseconds); `Utc::now()` becomes an explicit `now` parameter.
  * MQTT publishes are recorded as `(topic, retained, payload)` triples in
    the order they are issued; the QoS argument is dropped.
  * The Lua interpreter is external to the daemon, so the result of
    `evaluate_script` enters the decision cycle as a parameter
    (`Except err (Option String)`, mirroring `anyhow::Result<Option<String>>`).
-/

namespace HomeServer

/-- `HvacRequest` from `models/src/hvac_request.rs`. -/
inductive HvacRequest
  | Off
  | Heat
  | Cool
deriving DecidableEq, Repr

/-- `HvacRequest::from_payload`: match on the first byte of the payload. -/
def HvacRequest.fromPayload (payload : String) : Option HvacRequest :=
  match payload.data.head? with
  | some 'o' | some 'O' => some .Off
  | some 'h' | some 'H' => some .Heat
  | some 'c' | some 'C' => some .Cool
  | _ => none

/-- `HvacRequest::from_string` delegates to `from_payload`. -/
def HvacRequest.fromString (payload : String) : Option HvacRequest :=
  HvacRequest.fromPayload payload

/-- `HvacRequest::payload_str`. -/
def HvacRequest.payloadStr : HvacRequest → String
  | .Off => "off"
  | .Heat => "heat"
  | .Cool => "cool"

/-- `Default for HvacRequest` is `Off`. -/
instance : Inhabited HvacRequest := ⟨HvacRequest.Off⟩

/-- Rust's `std::cmp::Ordering`. -/
inductive RustOrdering
  | Less
  | Equal
  | Greater
deriving DecidableEq, Repr

/-- An `f64` value: `none` models NaN, `some q` a (finite) numeric value. -/
abbrev F64 := Option ℚ

/-- `f64::partial_cmp` against a numeric setpoint: `None` exactly when the
left operand is NaN (the setpoint comes from JSON and is never NaN). -/
def f64PartialCmp (a : F64) (b : ℚ) : Option RustOrdering :=
  match a with
  | none => none
  | some x => some (if x < b then .Less else if x = b then .Equal else .Greater)

/-- `OneshotOrdering` from `models/src/thermostatd.rs`. -/
inductive OneshotOrdering
  | Less
  | Greater
deriving DecidableEq, Repr

/-- `TimedOverride` from `models/src/thermostatd.rs`; the expiration instant
is epoch milliseconds. -/
structure TimedOverride where
  command : HvacRequest
  expiration : Int
deriving DecidableEq, Repr

/-- `OneshotOverride` from `models/src/thermostatd.rs`; the `f32` setpoint is
modelled as a rational (its cast to `f64` in the decision cycle is exact). -/
structure OneshotOverride where
  command : HvacRequest
  comparison : OneshotOrdering
  setpoint : ℚ
  probe : String
deriving DecidableEq, Repr

/- The topic constants of `thermostatd/src/main.rs` (`mod channels`). -/
namespace channels

def HVAC_REMOTESTATE_SET : String := "test/thermostat/hvac/remotestate/set"

def HVAC_MODE : String := "home/thermostat/hvac/mode"

def REMOTESTATE : String := "home/thermostat/hvac/remotestate"

def SCRIPT_DATA_ERROR : String := "home/thermostatd/script/error"

def TIMED_OVERRIDE : String := "home/thermostatd/timed_override"

def ONESHOT_OVERRIDE : String := "home/thermostatd/oneshot_override"

end channels

/-- The decision-relevant cells of `CommonState` (`thermostatd/src/main.rs`).
`probe_values: HashMap<String, f64>` is an association list with unique keys;
the `script` and `retained_keys` cells do not participate in the evaluation
block and are omitted. -/
structure CommonState where
  mode : HvacRequest
  lastCall : HvacRequest
  timedOverride : Option TimedOverride
  oneshotOverride : Option OneshotOverride
  probeValues : List (String × F64)
deriving DecidableEq, Repr

/-- `HashMap::get` on the probe-value cache. -/
def lookupProbe (cache : List (String × F64)) (name : String) : Option F64 :=
  (cache.find? (fun kv => kv.1 == name)).map (·.2)

/-- One MQTT publish: topic, retained flag, payload (QoS dropped). -/
structure Publish where
  topic : String
  retained : Bool
  payload : String
deriving DecidableEq, Repr

/-- `serde_json::to_string` of `Option<TimedOverride>`: `None` serializes to
`"null"`. (The `Some` payload renders the record; the claims only inspect the
`null` case, and the RFC3339 instant is abbreviated to its integer model.) -/
def timedOverrideJson : Option TimedOverride → String
  | none => "null"
  | some t =>
      "\x7b\"command\":\"" ++ t.command.payloadStr ++ "\",\"expiration\":\""
        ++ toString t.expiration ++ "\"\x7d"

/-- `serde_json::to_string` of `Option<OneshotOverride>`: `None` serializes
to `"null"`. -/
def oneshotOverrideJson : Option OneshotOverride → String
  | none => "null"
  | some o =>
      "\x7b\"command\":\"" ++ o.command.payloadStr ++ "\",\"comparison\":\""
        ++ (match o.comparison with | .Less => "less" | .Greater => "greater")
        ++ "\",\"probe\":\"" ++ o.probe ++ "\"\x7d"

/-- The structured script-error message published on `SCRIPT_DATA_ERROR`
(`serde_json::json!` with keys in sorted order). The error text is kept
abstract as a string parameter. -/
def scriptErrorJson (errorAt : String) (error : String) : String :=
  "\x7b\"error\":\"" ++ error ++ "\",\"error_at\":\"" ++ errorAt
    ++ "\",\"success\":false\x7d"

/-- The result of one pass through the evaluation block: the updated
`CommonState` cells and the publishes issued, in order. -/
structure CycleResult where
  state : CommonState
  publishes : List Publish
deriving DecidableEq, Repr

/-- The TimedOverride block of the evaluation cycle
(`if next_call.is_none() && let Some(timed_override) = ..`,
`thermostatd/src/scripting.rs` lines 126–135).  Returns the `next_call`
contribution, the updated state and the publishes issued. -/
def timedStep (st : CommonState) (now : Int) :
    Option HvacRequest × CommonState × List Publish :=
  match st.timedOverride with
  | some timedOverride =>
      if timedOverride.expiration > now then
        (some timedOverride.command, st, [])
      else
        -- `state.timed_override.take(); publish_timed_override(..)`
        let st' := { st with timedOverride := none }
        (none, st',
          [⟨channels.TIMED_OVERRIDE, true, timedOverrideJson st'.timedOverride⟩])
  | none => (none, st, [])

/-- The OneshotOverride block of the evaluation cycle
(`thermostatd/src/scripting.rs` lines 137–160); entered only when the timed
block produced no call. -/
def oneshotStep (st : CommonState) :
    Option HvacRequest × CommonState × List Publish :=
  match st.oneshotOverride with
  | some oneshotOverride =>
      match lookupProbe st.probeValues oneshotOverride.probe with
      | some currtemp =>
          match oneshotOverride.comparison,
                f64PartialCmp currtemp oneshotOverride.setpoint with
          | .Less, some .Less => (some oneshotOverride.command, st, [])
          | .Greater, some .Greater => (some oneshotOverride.command, st, [])
          | _, _ =>
              -- `state.oneshot_override.take(); publish_oneshot_override(..)`
              let st' := { st with oneshotOverride := none }
              (none, st',
                [⟨channels.ONESHOT_OVERRIDE, true,
                  oneshotOverrideJson st'.oneshotOverride⟩])
      | none =>
          let st' := { st with oneshotOverride := none }
          (none, st',
            [⟨channels.ONESHOT_OVERRIDE, true,
              oneshotOverrideJson st'.oneshotOverride⟩])
  | none => (none, st, [])

/-- The script block of the evaluation cycle
(`thermostatd/src/scripting.rs` lines 162–182); entered only when no override
produced a call.  `scriptResult` is the outcome of `evaluate_script`. -/
def scriptStep (scriptResult : Except String (Option String)) :
    Option HvacRequest × List Publish :=
  match scriptResult with
  | .ok (some call) => (HvacRequest.fromString call, [])
  | .ok none => (none, [])
  | .error e =>
      (none, [⟨channels.SCRIPT_DATA_ERROR, true,
               scriptErrorJson "evaluate_script" e⟩])

/-- The commit (`thermostatd/src/scripting.rs` lines 184–189):
`if let Some(next_call) = next_call { if next_call != last_call { set } }`. -/
def commitStep (nextCall : Option HvacRequest) (st : CommonState) : CommonState :=
  match nextCall with
  | some nc => if nc ≠ st.lastCall then { st with lastCall := nc } else st
  | none => st

/-- The evaluation block of `run_script_loop` (`thermostatd/src/scripting.rs`
lines 123–199): timed override, then oneshot override, then the script, then
the commit and the keep-alive publish on `HVAC_REMOTESTATE_SET`. -/
def decisionCycle (st : CommonState) (now : Int)
    (scriptResult : Except String (Option String)) : CycleResult :=
  let step1 := timedStep st now
  let step2 :=
    if step1.1.isSome then (step1.1, step1.2.1, []) else oneshotStep step1.2.1
  let step3 :=
    if step2.1.isSome then (step2.1, []) else scriptStep scriptResult
  let st3 := commitStep step3.1 step2.2.1
  -- keep-alive: `mqtt.publish(HVAC_REMOTESTATE_SET, .., false, last_call.payload_str())`
  ⟨st3, step1.2.2 ++ step2.2.2 ++ step3.2
          ++ [⟨channels.HVAC_REMOTESTATE_SET, false, st3.lastCall.payloadStr⟩]⟩

end HomeServer

namespace HomeServer

/-- The `cmp::Ordering` value on which the oneshot match arms keep the
override: `(Less, Less)` and `(Greater, Greater)` (statement helper). -/
def oneshotTarget : OneshotOrdering → RustOrdering
  | .Less => .Less
  | .Greater => .Greater

/-- Statement helper: the stored comparison holds of the cached probe value
(`Less`: value < setpoint, `Greater`: value > setpoint); `false` when the
probe is missing from the cache or the value is NaN. -/
def oneshotHolds (o : OneshotOverride) (cache : List (String × F64)) : Bool :=
  match lookupProbe cache o.probe with
  | some v => f64PartialCmp v o.setpoint == some (oneshotTarget o.comparison)
  | none => false

theorem oneshotHolds_some {o : OneshotOverride} {cache : List (String × F64)}
    {v : F64} (h : lookupProbe cache o.probe = some v) :
    oneshotHolds o cache
      = (f64PartialCmp v o.setpoint == some (oneshotTarget o.comparison)) := by
  unfold oneshotHolds
  rw [h]

theorem oneshotHolds_none {o : OneshotOverride} {cache : List (String × F64)}
    (h : lookupProbe cache o.probe = none) : oneshotHolds o cache = false := by
  unfold oneshotHolds
  rw [h]

/-! Helper lemmas about the decision-cycle steps. -/

theorem commitStep_timed (nc : Option HvacRequest) (st : CommonState) :
    (commitStep nc st).timedOverride = st.timedOverride := by
  unfold commitStep
  rcases nc with _ | c
  · rfl
  · by_cases h : c = st.lastCall <;> simp [h]

theorem commitStep_oneshot (nc : Option HvacRequest) (st : CommonState) :
    (commitStep nc st).oneshotOverride = st.oneshotOverride := by
  unfold commitStep
  rcases nc with _ | c
  · rfl
  · by_cases h : c = st.lastCall <;> simp [h]

theorem commitStep_lastCall_some (nc : HvacRequest) (st : CommonState) :
    (commitStep (some nc) st).lastCall = nc := by
  unfold commitStep
  by_cases h : nc = st.lastCall <;> simp [h]

theorem oneshotStep_timed (st : CommonState) :
    (oneshotStep st).2.1.timedOverride = st.timedOverride := by
  unfold oneshotStep
  split <;> try rfl
  all_goals (split <;> try rfl)
  all_goals (split <;> rfl)

theorem oneshotStep_match (st : CommonState) (o : OneshotOverride) (v : F64)
    (h1 : st.oneshotOverride = some o)
    (h2 : lookupProbe st.probeValues o.probe = some v)
    (h3 : f64PartialCmp v o.setpoint = some (oneshotTarget o.comparison)) :
    oneshotStep st = (some o.command, st, []) := by
  unfold oneshotStep
  rcases hc : o.comparison <;> rw [hc] at h3 <;>
    simp only [h1, h2, h3, oneshotTarget, hc]

theorem oneshotStep_clear_missing (st : CommonState) (o : OneshotOverride)
    (h1 : st.oneshotOverride = some o)
    (h2 : lookupProbe st.probeValues o.probe = none) :
    oneshotStep st = (none, { st with oneshotOverride := none },
      [⟨channels.ONESHOT_OVERRIDE, true, "null"⟩]) := by
  unfold oneshotStep
  simp only [h1, h2]
  rfl

theorem oneshotStep_clear_cmp (st : CommonState) (o : OneshotOverride) (v : F64)
    (h1 : st.oneshotOverride = some o)
    (h2 : lookupProbe st.probeValues o.probe = some v)
    (h3 : f64PartialCmp v o.setpoint ≠ some (oneshotTarget o.comparison)) :
    oneshotStep st = (none, { st with oneshotOverride := none },
      [⟨channels.ONESHOT_OVERRIDE, true, "null"⟩]) := by
  unfold oneshotStep
  rcases hc : o.comparison <;> rw [hc] at h3 <;>
    rcases hp : f64PartialCmp v o.setpoint with _ | c <;> try rcases c <;> rw [hp] at h3
  all_goals simp only [h1, h2, hc, hp]
  all_goals first
    | rfl
    | (exfalso; exact h3 (by simp [oneshotTarget]))

theorem timedStep_inactive (st : CommonState) (now : Int)
    (hT : ∀ t ∈ st.timedOverride, t.expiration ≤ now) :
    (timedStep st now).1 = none ∧
    (timedStep st now).2.1.oneshotOverride = st.oneshotOverride ∧
    (timedStep st now).2.1.probeValues = st.probeValues ∧
    (timedStep st now).2.1.lastCall = st.lastCall ∧
    ∀ p ∈ (timedStep st now).2.2, p.topic = channels.TIMED_OVERRIDE := by
  unfold timedStep
  rcases h : st.timedOverride with _ | t
  · simp
  · have ht : t.expiration ≤ now := hT t (by rw [h]; rfl)
    have : ¬ t.expiration > now := not_lt.mpr ht
    simp [this]

theorem cycle_timed_none (st : CommonState) (now : Int)
    (sr : Except String (Option String)) (h : st.timedOverride = none) :
    (decisionCycle st now sr).state.timedOverride = none := by
  unfold decisionCycle timedStep
  simp only [h]
  by_cases h2 : (oneshotStep st).1.isSome <;>
    simp [h2, commitStep_timed, oneshotStep_timed, h]

end HomeServer

namespace HomeServer

/-- C1: in every decision cycle in which a TimedOverride is present whose
expiration is later than the current time, the call committed (the new
`last_call`) and published by the decision engine equals that override's
command, for every value of the oneshot override, the probe-value cache and
the script's evaluate result — the cycle performs no other publish. -/
theorem timed_override_precedence (st : CommonState) (now : Int)
    (t : TimedOverride) (sr : Except String (Option String))
    (h1 : st.timedOverride = some t) (h2 : t.expiration > now) :
    (decisionCycle st now sr).state.lastCall = t.command ∧
    (decisionCycle st now sr).publishes =
      [⟨channels.HVAC_REMOTESTATE_SET, false, t.command.payloadStr⟩] := by
  unfold decisionCycle timedStep
  simp only [h1, if_pos h2]
  by_cases hc : t.command = st.lastCall
  · simp [hc, commitStep]
  · simp [hc, commitStep]

/-- C1 witness: a concrete cycle with an unexpired `Heat` timed override, a
set oneshot override, a populated cache and a script returning `"cool"`. -/
theorem timed_override_precedence_witness :
    (decisionCycle
      { mode := .Off, lastCall := .Off, timedOverride := some ⟨.Heat, 100⟩,
        oneshotOverride := some ⟨.Cool, .Less, 20, "p"⟩,
        probeValues := [("p", some 10)] } 0 (.ok (some "cool"))).state.lastCall
        = HvacRequest.Heat ∧
    (decisionCycle
      { mode := .Off, lastCall := .Off, timedOverride := some ⟨.Heat, 100⟩,
        oneshotOverride := some ⟨.Cool, .Less, 20, "p"⟩,
        probeValues := [("p", some 10)] } 0 (.ok (some "cool"))).publishes =
      [⟨channels.HVAC_REMOTESTATE_SET, false, "heat"⟩] :=
  timed_override_precedence _ 0 ⟨.Heat, 100⟩ _ rfl (by decide)

/-- C2 (code bug): with the oneshot override `(cool, Less, 20.5, "primary")`
and a cached probe value of `22` (so the goal `value < setpoint` is NOT yet
reached), the decision cycle clears the override and publishes the cleared
`null` record instead of emitting `cool`: the match arms in
`run_script_loop` keep the override on `(Less, Ordering::Less)` and clear it
otherwise, the opposite of the spec (and of the older in-repo
`MixerState::get_query`, which clears on `(Less, Less)` as "setpoint
completed"). -/
theorem oneshot_clear_inverted_bug :
    decisionCycle
      { mode := .Cool, lastCall := .Off, timedOverride := none,
        oneshotOverride := some ⟨.Cool, .Less, mkRat 41 2, "primary"⟩,
        probeValues := [("primary", some 22)] } 0 (.ok none)
    = ⟨{ mode := .Cool, lastCall := .Off, timedOverride := none,
         oneshotOverride := none, probeValues := [("primary", some 22)] },
       [⟨channels.ONESHOT_OVERRIDE, true, "null"⟩,
        ⟨channels.HVAC_REMOTESTATE_SET, false, "off"⟩]⟩ := by
  decide

/-- C3: with no (unexpired) timed override in the way, a set OneshotOverride
stays active — the cycle commits and publishes its command and does not
publish on the oneshot topic — exactly while the stored comparison holds of
the cached probe value (`Less`: value < setpoint, `Greater`: value >
setpoint); in the first cycle where the comparison no longer holds (also
when the value is NaN) or the probe is missing from the cache, the override
is cleared and the cleared `null` record is published. -/
theorem oneshot_override_lifecycle (st : CommonState) (now : Int)
    (o : OneshotOverride) (sr : Except String (Option String))
    (hT : ∀ t ∈ st.timedOverride, t.expiration ≤ now)
    (h1 : st.oneshotOverride = some o) :
    (oneshotHolds o st.probeValues = true →
      (decisionCycle st now sr).state.oneshotOverride = some o ∧
      (decisionCycle st now sr).state.lastCall = o.command ∧
      (decisionCycle st now sr).publishes.getLast? =
        some ⟨channels.HVAC_REMOTESTATE_SET, false, o.command.payloadStr⟩ ∧
      (⟨channels.ONESHOT_OVERRIDE, true, "null"⟩ : Publish) ∉
        (decisionCycle st now sr).publishes) ∧
    (oneshotHolds o st.probeValues = false →
      (decisionCycle st now sr).state.oneshotOverride = none ∧
      (⟨channels.ONESHOT_OVERRIDE, true, "null"⟩ : Publish) ∈
        (decisionCycle st now sr).publishes) := by
  obtain ⟨ht1, ht2, ht3, ht4, ht5⟩ := timedStep_inactive st now hT
  have hA1 : (timedStep st now).2.1.oneshotOverride = some o := by rw [ht2, h1]
  constructor
  · intro hold
    rcases hv : lookupProbe st.probeValues o.probe with _ | v
    · rw [oneshotHolds_none hv] at hold; cases hold
    · rw [oneshotHolds_some hv] at hold
      have hcmp : f64PartialCmp v o.setpoint = some (oneshotTarget o.comparison) :=
        beq_iff_eq.mp hold
      have hstep2 : oneshotStep (timedStep st now).2.1
          = (some o.command, (timedStep st now).2.1, []) :=
        oneshotStep_match _ o v hA1 (by rw [ht3, hv]) hcmp
      have hcyc : decisionCycle st now sr =
          ⟨commitStep (some o.command) (timedStep st now).2.1,
            (timedStep st now).2.2 ++
              [⟨channels.HVAC_REMOTESTATE_SET, false,
                (commitStep (some o.command)
                    (timedStep st now).2.1).lastCall.payloadStr⟩]⟩ := by
        unfold decisionCycle
        simp [ht1, hstep2]
      rw [hcyc]
      refine ⟨?_, ?_, ?_, ?_⟩
      · rw [commitStep_oneshot, hA1]
      · exact commitStep_lastCall_some o.command _
      · rw [commitStep_lastCall_some o.command _]
        exact List.getLast?_append_cons _ _ _
      · intro hmem
        rcases List.mem_append.mp hmem with hmem | hmem
        · have := ht5 _ hmem
          simp [channels.TIMED_OVERRIDE, channels.ONESHOT_OVERRIDE] at this
        · rcases List.mem_singleton.mp hmem with h
          have : channels.ONESHOT_OVERRIDE = channels.HVAC_REMOTESTATE_SET :=
            congrArg Publish.topic h
          simp [channels.ONESHOT_OVERRIDE, channels.HVAC_REMOTESTATE_SET] at this
  · intro hold
    have hstep2 : oneshotStep (timedStep st now).2.1
        = (none, { (timedStep st now).2.1 with oneshotOverride := none },
          [⟨channels.ONESHOT_OVERRIDE, true, "null"⟩]) := by
      rcases hv : lookupProbe st.probeValues o.probe with _ | v
      · exact oneshotStep_clear_missing _ o hA1 (by rw [ht3, hv])
      · rw [oneshotHolds_some hv] at hold
        have hcmp : f64PartialCmp v o.setpoint ≠ some (oneshotTarget o.comparison) := by
          intro hc
          rw [hc] at hold
          simp at hold
        exact oneshotStep_clear_cmp _ o v hA1 (by rw [ht3, hv]) hcmp
    constructor
    · show (decisionCycle st now sr).state.oneshotOverride = none
      unfold decisionCycle
      simp [ht1, hstep2, commitStep_oneshot]
    · show _ ∈ (decisionCycle st now sr).publishes
      unfold decisionCycle
      simp [ht1, hstep2]

/-- C3 witness: no timed override, oneshot `(cool, Greater, 20, "primary")`
with cached value `22`; the comparison holds, so the override stays and the
cycle emits `cool`. -/
theorem oneshot_override_lifecycle_witness :
    (oneshotHolds ⟨HvacRequest.Cool, .Greater, 20, "primary"⟩
        [("primary", some 22)] = true →
      (decisionCycle
        { mode := .Cool, lastCall := .Off, timedOverride := none,
          oneshotOverride := some ⟨HvacRequest.Cool, .Greater, 20, "primary"⟩,
          probeValues := [("primary", some 22)] } 0 (.ok none)).state.oneshotOverride
          = some ⟨HvacRequest.Cool, .Greater, 20, "primary"⟩ ∧
      (decisionCycle
        { mode := .Cool, lastCall := .Off, timedOverride := none,
          oneshotOverride := some ⟨HvacRequest.Cool, .Greater, 20, "primary"⟩,
          probeValues := [("primary", some 22)] } 0 (.ok none)).state.lastCall
          = HvacRequest.Cool ∧
      (decisionCycle
        { mode := .Cool, lastCall := .Off, timedOverride := none,
          oneshotOverride := some ⟨HvacRequest.Cool, .Greater, 20, "primary"⟩,
          probeValues := [("primary", some 22)] } 0 (.ok none)).publishes.getLast? =
        some ⟨channels.HVAC_REMOTESTATE_SET, false, "cool"⟩ ∧
      (⟨channels.ONESHOT_OVERRIDE, true, "null"⟩ : Publish) ∉
        (decisionCycle
        { mode := .Cool, lastCall := .Off, timedOverride := none,
          oneshotOverride := some ⟨HvacRequest.Cool, .Greater, 20, "primary"⟩,
          probeValues := [("primary", some 22)] } 0 (.ok none)).publishes) ∧
    (oneshotHolds ⟨HvacRequest.Cool, .Greater, 20, "primary"⟩
        [("primary", some 22)] = false →
      (decisionCycle
        { mode := .Cool, lastCall := .Off, timedOverride := none,
          oneshotOverride := some ⟨HvacRequest.Cool, .Greater, 20, "primary"⟩,
          probeValues := [("primary", some 22)] } 0 (.ok none)).state.oneshotOverride
          = none ∧
      (⟨channels.ONESHOT_OVERRIDE, true, "null"⟩ : Publish) ∈
        (decisionCycle
        { mode := .Cool, lastCall := .Off, timedOverride := none,
          oneshotOverride := some ⟨HvacRequest.Cool, .Greater, 20, "primary"⟩,
          probeValues := [("primary", some 22)] } 0 (.ok none)).publishes) :=
  oneshot_override_lifecycle
    { mode := .Cool, lastCall := .Off, timedOverride := none,
      oneshotOverride := some ⟨HvacRequest.Cool, .Greater, 20, "primary"⟩,
      probeValues := [("primary", some 22)] }
    0 ⟨HvacRequest.Cool, .Greater, 20, "primary"⟩ (.ok none) (by simp) rfl

/-- C4 (code bug): every keep-alive publish of `last_call` at the end of an
evaluation cycle is the final publish of the cycle and is sent on
`channels::HVAC_REMOTESTATE_SET` — but that constant is
`"test/thermostat/hvac/remotestate/set"`, not the
`"home/thermostat/hvac/remotestate/set"` topic the relay listens on. -/
theorem keepalive_topic_bug (st : CommonState) (now : Int)
    (sr : Except String (Option String)) :
    (decisionCycle st now sr).publishes.getLast? =
      some ⟨channels.HVAC_REMOTESTATE_SET, false,
        (decisionCycle st now sr).state.lastCall.payloadStr⟩ ∧
    channels.HVAC_REMOTESTATE_SET = "test/thermostat/hvac/remotestate/set" ∧
    channels.HVAC_REMOTESTATE_SET ≠ "home/thermostat/hvac/remotestate/set" := by
  refine ⟨?_, rfl, by decide⟩
  unfold decisionCycle
  simp only [← List.append_assoc]
  rw [List.getLast?_append_cons]
  rfl

/-- C5: a decision cycle whose set TimedOverride has expired (expiration
earlier than the current time) clears it, publishes the cleared `null`
record retained on `home/thermostatd/timed_override` as its first publish,
and otherwise behaves exactly like the same cycle with no timed override at
all — so neither this cycle's emitted call nor any later cycle's is
determined by the cleared override. -/
theorem timed_override_expiry (st : CommonState) (now : Int)
    (t : TimedOverride) (sr : Except String (Option String))
    (h1 : st.timedOverride = some t) (h2 : t.expiration < now) :
    channels.TIMED_OVERRIDE = "home/thermostatd/timed_override" ∧
    (decisionCycle st now sr).state.timedOverride = none ∧
    decisionCycle st now sr =
      ⟨(decisionCycle { st with timedOverride := none } now sr).state,
        ⟨channels.TIMED_OVERRIDE, true, "null"⟩ ::
          (decisionCycle { st with timedOverride := none } now sr).publishes⟩ := by
  have hnot : ¬ t.expiration > now := not_lt.mpr (le_of_lt h2)
  have key : decisionCycle st now sr =
      ⟨(decisionCycle { st with timedOverride := none } now sr).state,
        ⟨channels.TIMED_OVERRIDE, true, "null"⟩ ::
          (decisionCycle { st with timedOverride := none } now sr).publishes⟩ := by
    unfold decisionCycle timedStep
    simp only [h1, if_neg hnot]
    rfl
  refine ⟨rfl, ?_, key⟩
  rw [key]
  exact cycle_timed_none _ _ _ rfl

/-- C5 witness: a `Cool` override that expired at time `-5`, evaluated at
time `0`. -/
theorem timed_override_expiry_witness :
    channels.TIMED_OVERRIDE = "home/thermostatd/timed_override" ∧
    (decisionCycle
      { mode := .Off, lastCall := .Heat, timedOverride := some ⟨.Cool, -5⟩,
        oneshotOverride := none, probeValues := [] } 0
        (.ok none)).state.timedOverride = none ∧
    decisionCycle
      { mode := .Off, lastCall := .Heat, timedOverride := some ⟨.Cool, -5⟩,
        oneshotOverride := none, probeValues := [] } 0 (.ok none) =
      ⟨(decisionCycle
          { mode := .Off, lastCall := .Heat, timedOverride := none,
            oneshotOverride := none, probeValues := [] } 0 (.ok none)).state,
        ⟨channels.TIMED_OVERRIDE, true, "null"⟩ ::
          (decisionCycle
            { mode := .Off, lastCall := .Heat, timedOverride := none,
              oneshotOverride := none, probeValues := [] } 0
              (.ok none)).publishes⟩ :=
  timed_override_expiry _ 0 ⟨.Cool, -5⟩ _ rfl (by decide)

end HomeServer

namespace HomeServer

/-! The probe historian (`src/hvac/mod.rs`, `probe_historian` task, and
`src/hvac/probe.rs`).  A probe's two atomic cells are its `f32` value (NaN
until the first reading, modelled `none`) and its last-update timestamp in
epoch milliseconds. -/

/-- `Probe` cells from `src/hvac/probe.rs` (name and endpoint omitted: the
historian body below is per-probe). -/
structure Probe where
  value : Option ℚ
  lastUpdate : Int
deriving DecidableEq, Repr

/-- `Probe::update`: stores the parsed value and `current_timestamp()` (the
wall clock enters as the explicit `now` parameter). -/
def Probe.update (_p : Probe) (value : Option ℚ) (now : Int) : Probe :=
  { value := value, lastUpdate := now }

/-- Fractional decimal digits of `num/den` (`num < den`), to exhaustion of
the expansion or of the fuel. -/
def fracDigits (num den : Nat) : Nat → List Char
  | 0 => []
  | fuel + 1 =>
      if num = 0 then []
      else Nat.digitChar (num * 10 / den) :: fracDigits (num * 10 % den) den fuel

/-- Rust `Display` for a finite float value, on rationals whose shortest
round-trip form is their exact terminating decimal expansion (integers print
without a decimal point, e.g. `20`; `20.5` prints as `"20.5"`). -/
def fmtQ (q : ℚ) : String :=
  let sign := if q < 0 then "-" else ""
  let n := q.num.natAbs
  let d := q.den
  if n % d = 0 then sign ++ toString (n / d)
  else sign ++ toString (n / d) ++ "." ++ String.mk (fracDigits (n % d) d 200)

/-- Rust `Display` for `f32` (`NaN` prints as `"NaN"`). -/
def fmtF32 : Option ℚ → String
  | none => "NaN"
  | some q => fmtQ q

/-- `MAX_LEN` from the `probe_historian` task: `60 * 60 * 24 * 14 / PERIOD`
with `PERIOD = 10`. -/
def MAX_LEN : Nat := 60 * 60 * 24 * 14 / 10

/-- The history entry built by the historian:
`format!("{time}:{value}", value = probe.value(), time = probe.last_update())`. -/
def entryData (p : Probe) : String :=
  toString p.lastUpdate ++ ":" ++ fmtF32 p.value

/-- One probe's body of a `probe_historian` cycle (`src/hvac/mod.rs` lines
122–145): skip NaN probes; `lindex key 0` (an empty or absent list yields
nil, whose conversion to `String` fails, skipping the probe); `lpush` only
when the head differs from the freshly built entry; `ltrim 0 (MAX_LEN-1)`. -/
def probeHistorianStep (p : Probe) (history : List String) : List String :=
  match p.value with
  | none => history
  | some _ =>
      let data := entryData p
      match history.head? with
      | none => history
      | some lastValue =>
          let history' := if lastValue ≠ data then data :: history else history
          history'.take MAX_LEN

end HomeServer

namespace HomeServer

/-- C6 (amended): the probe historian appends a new entry only if it differs
from the current list head, so re-running the historian step with an
unchanged probe snapshot (no new delivery) adds nothing: the step is
idempotent. -/
theorem probe_historian_idempotent (p : Probe) (h : List String) :
    probeHistorianStep p (probeHistorianStep p h) = probeHistorianStep p h := by
  rcases hv : p.value with _ | q
  · simp [probeHistorianStep, hv]
  · rcases h with _ | ⟨a, t⟩
    · simp [probeHistorianStep, hv]
    · have hsucc : MAX_LEN = 120959 + 1 := rfl
      have hsucc2 : (120959 : Nat) = 120958 + 1 := rfl
      by_cases hd : a = entryData p
      · have e1 : probeHistorianStep p (a :: t) = a :: t.take 120959 := by
          unfold probeHistorianStep
          rw [hv]
          simp only [List.head?_cons]
          rw [if_neg (by simp [hd] : ¬ a ≠ entryData p)]
          rw [hsucc, List.take_succ_cons]
        rw [e1]
        unfold probeHistorianStep
        rw [hv]
        simp only [List.head?_cons]
        rw [if_neg (by simp [hd] : ¬ a ≠ entryData p)]
        rw [hsucc, List.take_succ_cons, List.take_take]
        simp
      · have e1 : probeHistorianStep p (a :: t)
            = entryData p :: a :: t.take 120958 := by
          unfold probeHistorianStep
          rw [hv]
          simp only [List.head?_cons]
          rw [if_pos hd]
          rw [hsucc, List.take_succ_cons, hsucc2, List.take_succ_cons]
        rw [e1]
        unfold probeHistorianStep
        rw [hv]
        simp only [List.head?_cons]
        rw [if_neg (by simp : ¬ entryData p ≠ entryData p)]
        rw [hsucc, List.take_succ_cons, hsucc2, List.take_succ_cons,
          List.take_take]
        simp

/-- C6 counterexample: the same temperature 20.5 delivered twice in a row
(at epoch-ms 1000 and 2000) produces TWO list entries, not one: each
delivery refreshes `last_update`, the encoded entry `"{time}:{value}"`
differs, and the head-comparison pushes again. -/
theorem probe_history_dedup_counterexample :
    probeHistorianStep
        (Probe.update (Probe.update ⟨some 20, 500⟩ (some (mkRat 41 2)) 1000)
          (some (mkRat 41 2)) 2000)
        (probeHistorianStep (Probe.update ⟨some 20, 500⟩ (some (mkRat 41 2)) 1000)
          ["500:20"])
      = ["2000:20.5", "1000:20.5", "500:20"] := by
  decide

/-- C7 (amended): the entry the probe historian pushes is encoded with the
epoch-milliseconds timestamp BEFORE the colon and the probe value after it
(`"<epoch_ms>:<value>"` — `format!("{time}:{value}", ..)`). -/
theorem probe_history_entry_encoding (p : Probe) (q : ℚ) (hist : List String)
    (lv : String) (hq : p.value = some q) (hh : hist.head? = some lv)
    (hne : lv ≠ entryData p) :
    (probeHistorianStep p hist).head? =
      some (toString p.lastUpdate ++ ":" ++ fmtF32 p.value) := by
  rcases hist with _ | ⟨a, t⟩
  · cases hh
  · have ha : a = lv := by simpa using hh
    unfold probeHistorianStep
    rw [hq]
    simp only [List.head?_cons]
    rw [if_pos (ha ▸ hne)]
    rw [show MAX_LEN = 120959 + 1 from rfl, List.take_succ_cons]
    simp [entryData, hq]

/-- C7 witness: a reading of 20.5 at epoch-ms 1000 pushes "1000:20.5". -/
theorem probe_history_entry_encoding_witness :
    (probeHistorianStep ⟨some (mkRat 41 2), 1000⟩ ["0:0"]).head? =
      some (toString (1000 : Int) ++ ":" ++ fmtF32 (some (mkRat 41 2))) :=
  probe_history_entry_encoding ⟨some (mkRat 41 2), 1000⟩ (mkRat 41 2)
    ["0:0"] "0:0" rfl rfl (by decide)

/-- C7 counterexample: the head entry recorded for a reading of 20.5 at
epoch-ms 1000 is "1000:20.5"; its first five characters are NOT "20.5:" —
the value follows the colon, the timestamp precedes it. -/
theorem probe_history_encoding_counterexample :
    probeHistorianStep ⟨some (mkRat 41 2), 1000⟩ ["0:0"] = ["1000:20.5", "0:0"] ∧
    "1000:20.5".data.take 5 ≠ "20.5:".data ∧
    "1000:20.5" = toString (1000 : Int) ++ ":" ++ fmtQ (mkRat 41 2) := by
  refine ⟨by decide, by decide, by decide⟩

/-- C10: when a probe's history list is empty (the key is absent), the
historian cycle appends nothing for that probe: `lindex .. 0` yields nil,
its conversion to `String` fails, and the `let .. else continue` skips the
probe — the historian never writes the first entry of an empty list. -/
theorem probe_history_empty_skip (p : Probe) :
    probeHistorianStep p [] = [] := by
  rcases hv : p.value with _ | q <;> simp [probeHistorianStep, hv]

end HomeServer

namespace HomeServer

/-! The `timed_program` helper (`ScriptState`, `thermostatd/src/scripting.rs`
lines 274–306).  A Lua table arrives as a list of key/value pairs; the typed
iteration `program.pairs::<String, LuaFunction>()` fails on a pair whose key
is not a string or whose value is not a function, which the code turns into
an immediate error.  A pair is modelled as `(Option String × Option α)`:
`none` components stand for non-string keys / non-function values, and a
function is identified with the value `α` its zero-argument call returns.
Wall-clock times of day are seconds since midnight; the error texts are
abridged (the Rust messages carry a `[src:<line>]` prefix and quote marks). -/

/-- `NaiveTime::parse_from_str(s, "%H:%M")`: one or two digits for the hour
(0–23), a literal colon, one or two digits for the minute (0–59), nothing
else; the result is seconds since midnight. -/
def parseHHMM (s : String) : Option Nat :=
  let cs := s.data
  let hd := cs.takeWhile Char.isDigit
  let rest := cs.dropWhile Char.isDigit
  if 1 ≤ hd.length ∧ hd.length ≤ 2 then
    match rest with
    | ':' :: rest2 =>
        let md := rest2.takeWhile Char.isDigit
        let rest3 := rest2.dropWhile Char.isDigit
        if 1 ≤ md.length ∧ md.length ≤ 2 ∧ rest3 = [] then
          let h := hd.foldl (fun acc c => acc * 10 + (c.toNat - 48)) 0
          let m := md.foldl (fun acc c => acc * 10 + (c.toNat - 48)) 0
          if h ≤ 23 ∧ m ≤ 59 then some (h * 3600 + m * 60) else none
        else none
    | _ => none
  else none

/-- `BTreeMap::insert` on a key-sorted association list (an equal key is
overwritten). -/
def btreeInsert {α : Type} : List (Nat × α) → Nat → α → List (Nat × α)
  | [], k, v => [(k, v)]
  | (k', v') :: rest, k, v =>
      if k < k' then (k, v) :: (k', v') :: rest
      else if k = k' then (k, v) :: rest
      else (k', v') :: btreeInsert rest k v

/-- The pair-conversion/parse loop of `timed_program`: the first malformed
pair aborts with an error, otherwise the parsed entries are collected into
the `BTreeMap`. -/
def buildProgramTable {α : Type} :
    List (Option String × Option α) → List (Nat × α)
      → Except String (List (Nat × α))
  | [], acc => .ok acc
  | (key?, val?) :: rest, acc =>
      match key?, val? with
      | some timeStr, some func =>
          match parseHHMM timeStr with
          | some time => buildProgramTable rest (btreeInsert acc time func)
          | none =>
              .error ("Timed program keys must be in HH:MM format. Found "
                        ++ timeStr)
      | _, _ =>
          .error "Timed program must be passed a table mapping time strings to functions"

/-- The selection loop of `timed_program`: `active_time` starts at the last
(greatest) key; ascending keys strictly below the current time advance it;
the first key not below the current time breaks.  The pair is tracked
instead of the key alone — keys are unique in the map, so the final
`program_table[&active_time]` lookup retrieves exactly the tracked value. -/
def tpSelect {α : Type} (current : Nat) :
    List (Nat × α) → (Nat × α) → (Nat × α)
  | [], active => active
  | (t, f) :: rest, active =>
      if t < current then tpSelect current rest (t, f) else active

/-- `timed_program` (`thermostatd/src/scripting.rs` lines 274–306): convert
the pairs, fail on any malformed one, return nil for an empty table,
otherwise call (here: return) the selected entry's function. -/
def timedProgram {α : Type} (program : List (Option String × Option α))
    (currentTime : Nat) : Except String (Option α) :=
  match buildProgramTable program [] with
  | .error e => .error e
  | .ok programTable =>
      match programTable with
      | [] => .ok none
      | e :: es =>
          .ok (some (tpSelect currentTime (e :: es)
                ((e :: es).getLast (List.cons_ne_nil e es))).2)

/-- Statement helper for C8: a well-formed Lua pair — string key in `HH:MM`
form, function value. -/
def wfEntry {α : Type} : Option String × Option α → Bool
  | (some k, some _) => (parseHHMM k).isSome
  | _ => false

/-- Statement helper for C8: the parsed `(seconds-of-day, function)` pairs of
the well-formed entries, in table order. -/
def parsedEntries {α : Type} (entries : List (Option String × Option α)) :
    List (Nat × α) :=
  entries.filterMap (fun e =>
    match e with
    | (some k, some f) => (parseHHMM k).map (fun t => (t, f))
    | _ => none)

end HomeServer

namespace HomeServer

section TPLemmas

variable {α : Type}

theorem btreeInsert_mem {l : List (Nat × α)} {k : Nat} {v : α} {x : Nat × α}
    (h : x ∈ btreeInsert l k v) : x = (k, v) ∨ x ∈ l := by
  induction l with
  | nil => simpa [btreeInsert] using h
  | cons hd tl ih =>
      obtain ⟨k', v'⟩ := hd
      unfold btreeInsert at h
      by_cases h1 : k < k'
      · rw [if_pos h1] at h
        simpa using h
      · rw [if_neg h1] at h
        by_cases h2 : k = k'
        · rw [if_pos h2] at h
          rcases List.mem_cons.mp h with h | h
          · exact Or.inl h
          · exact Or.inr (List.mem_cons_of_mem _ h)
        · rw [if_neg h2] at h
          rcases List.mem_cons.mp h with h | h
          · exact Or.inr (by simp [h])
          · rcases ih h with h | h
            · exact Or.inl h
            · exact Or.inr (List.mem_cons_of_mem _ h)

theorem btreeInsert_key {l : List (Nat × α)} (k : Nat) (v : α) :
    k ∈ (btreeInsert l k v).map Prod.fst := by
  induction l with
  | nil => simp [btreeInsert]
  | cons hd tl ih =>
      obtain ⟨k', v'⟩ := hd
      unfold btreeInsert
      by_cases h1 : k < k'
      · simp [h1]
      · by_cases h2 : k = k'
        · simp [h1, h2]
        · simp only [if_neg h1, if_neg h2, List.map_cons, List.mem_cons]
          exact Or.inr ih

theorem btreeInsert_keys_sub {l : List (Nat × α)} {k' : Nat} (k : Nat) (v : α)
    (h : k' ∈ l.map Prod.fst) : k' ∈ (btreeInsert l k v).map Prod.fst := by
  induction l with
  | nil => simp at h
  | cons hd tl ih =>
      obtain ⟨k0, v0⟩ := hd
      obtain ⟨x, hx, hxk⟩ := List.mem_map.mp h
      unfold btreeInsert
      rcases List.mem_cons.mp hx with h0 | h0
      · by_cases h1 : k < k0
        · rw [if_pos h1]
          exact List.mem_map.mpr ⟨x, by simp [h0], hxk⟩
        · by_cases h2 : k = k0
          · rw [if_neg h1, if_pos h2]
            refine List.mem_map.mpr ⟨(k, v), by simp, ?_⟩
            rw [← hxk, h0, h2]
          · rw [if_neg h1, if_neg h2]
            exact List.mem_map.mpr ⟨x, by simp [h0], hxk⟩
      · by_cases h1 : k < k0
        · rw [if_pos h1]
          exact List.mem_map.mpr ⟨x, by simp [h0], hxk⟩
        · by_cases h2 : k = k0
          · rw [if_neg h1, if_pos h2]
            exact List.mem_map.mpr ⟨x, by simp [h0], hxk⟩
          · rw [if_neg h1, if_neg h2]
            have := ih (List.mem_map.mpr ⟨x, h0, hxk⟩)
            obtain ⟨y, hy, hyk⟩ := List.mem_map.mp this
            exact List.mem_map.mpr ⟨y, by simp [hy], hyk⟩

theorem btreeInsert_pairwise {l : List (Nat × α)} {k : Nat} {v : α}
    (h : l.Pairwise (fun a b => a.1 < b.1)) :
    (btreeInsert l k v).Pairwise (fun a b => a.1 < b.1) := by
  induction l with
  | nil => simp [btreeInsert]
  | cons hd tl ih =>
      obtain ⟨k0, v0⟩ := hd
      rw [List.pairwise_cons] at h
      obtain ⟨hbnd, htl⟩ := h
      unfold btreeInsert
      by_cases h1 : k < k0
      · rw [if_pos h1]
        refine List.Pairwise.cons ?_ (List.Pairwise.cons hbnd htl)
        intro x hx
        rcases List.mem_cons.mp hx with h | h
        · simp [h, h1]
        · exact lt_trans h1 (hbnd x h)
      · by_cases h2 : k = k0
        · rw [if_neg h1, if_pos h2]
          refine List.Pairwise.cons ?_ htl
          intro x hx
          simpa [h2] using hbnd x hx
        · rw [if_neg h1, if_neg h2]
          refine List.Pairwise.cons ?_ (ih htl)
          intro x hx
          rcases btreeInsert_mem hx with h | h
          · have : k0 < k := by omega
            simp [h, this]
          · exact hbnd x h

end TPLemmas

end HomeServer

namespace HomeServer

section TPLemmas2

variable {α : Type}

/-- The table accumulated by `buildProgramTable` over parsed entries. -/
def tpFold (acc : List (Nat × α)) (ps : List (Nat × α)) : List (Nat × α) :=
  ps.foldl (fun a kv => btreeInsert a kv.1 kv.2) acc

theorem tpFold_mem {ps : List (Nat × α)} {acc : List (Nat × α)} {x : Nat × α}
    (h : x ∈ tpFold acc ps) : x ∈ acc ∨ x ∈ ps := by
  induction ps generalizing acc with
  | nil => exact Or.inl h
  | cons hd tl ih =>
      rcases ih h with h | h
      · rcases btreeInsert_mem h with h | h
        · right; simp [h]
        · exact Or.inl h
      · right; exact List.mem_cons_of_mem _ h

theorem tpFold_keys_acc {ps : List (Nat × α)} {acc : List (Nat × α)} {k' : Nat}
    (h : k' ∈ acc.map Prod.fst) : k' ∈ (tpFold acc ps).map Prod.fst := by
  induction ps generalizing acc with
  | nil => exact h
  | cons hd tl ih => exact ih (btreeInsert_keys_sub _ _ h)

theorem tpFold_keys {ps : List (Nat × α)} {acc : List (Nat × α)} {k' : Nat}
    (h : k' ∈ ps.map Prod.fst) : k' ∈ (tpFold acc ps).map Prod.fst := by
  induction ps generalizing acc with
  | nil => simp at h
  | cons hd tl ih =>
      obtain ⟨x, hx, hxk⟩ := List.mem_map.mp h
      have hstep : tpFold acc (hd :: tl) = tpFold (btreeInsert acc hd.1 hd.2) tl := rfl
      rcases List.mem_cons.mp hx with h0 | h0
      · rw [hstep, ← hxk, h0]
        exact tpFold_keys_acc (btreeInsert_key hd.1 hd.2)
      · rw [hstep]
        exact ih (List.mem_map.mpr ⟨x, h0, hxk⟩)

theorem tpFold_pairwise {ps : List (Nat × α)} {acc : List (Nat × α)}
    (h : acc.Pairwise (fun a b => a.1 < b.1)) :
    (tpFold acc ps).Pairwise (fun a b => a.1 < b.1) := by
  induction ps generalizing acc with
  | nil => exact h
  | cons hd tl ih => exact ih (btreeInsert_pairwise h)

theorem btreeInsert_ne_nil (l : List (Nat × α)) (k : Nat) (v : α) :
    btreeInsert l k v ≠ [] := by
  induction l with
  | nil => simp [btreeInsert]
  | cons hd tl ih =>
      obtain ⟨k0, v0⟩ := hd
      unfold btreeInsert
      by_cases h1 : k < k0
      · simp [h1]
      · by_cases h2 : k = k0 <;> simp [h1, h2]

theorem tpFold_ne_nil {ps : List (Nat × α)} {acc : List (Nat × α)}
    (h : acc ≠ [] ∨ ps ≠ []) : tpFold acc ps ≠ [] := by
  induction ps generalizing acc with
  | nil => exact h.resolve_right (by simp)
  | cons hd tl ih => exact ih (Or.inl (btreeInsert_ne_nil acc hd.1 hd.2))

theorem buildProgramTable_ok {entries : List (Option String × Option α)}
    (hwf : ∀ e ∈ entries, wfEntry e = true) (acc : List (Nat × α)) :
    buildProgramTable entries acc = .ok (tpFold acc (parsedEntries entries)) := by
  induction entries generalizing acc with
  | nil => rfl
  | cons hd tl ih =>
      obtain ⟨key?, val?⟩ := hd
      have hw := hwf _ (List.mem_cons_self _ _)
      match key?, val? with
      | some timeStr, some func =>
          match hp : parseHHMM timeStr with
          | some time =>
              have hstep : buildProgramTable ((some timeStr, some func) :: tl) acc
                  = buildProgramTable tl (btreeInsert acc time func) := by
                simp only [buildProgramTable, hp]
              rw [hstep, ih (fun e he => hwf e (List.mem_cons_of_mem _ he))]
              have hparsed : parsedEntries ((some timeStr, some func) :: tl)
                  = (time, func) :: parsedEntries tl := by
                simp only [parsedEntries, List.filterMap_cons, hp, Option.map_some']
              rw [hparsed]
              rfl
          | none =>
              rw [wfEntry] at hw
              rw [hp] at hw
              simp at hw
      | none, _ => simp [wfEntry] at hw
      | some _, none => simp [wfEntry] at hw

theorem buildProgramTable_error {entries : List (Option String × Option α)}
    (hbad : ∃ e ∈ entries, wfEntry e = false) (acc : List (Nat × α)) :
    ∃ msg, buildProgramTable entries acc = .error msg := by
  induction entries generalizing acc with
  | nil => simp at hbad
  | cons hd tl ih =>
      obtain ⟨key?, val?⟩ := hd
      match key?, val? with
      | some timeStr, some func =>
          match hp : parseHHMM timeStr with
          | some time =>
              obtain ⟨e, he, hef⟩ := hbad
              rcases List.mem_cons.mp he with h0 | h0
              · rw [h0, wfEntry, hp] at hef
                simp at hef
              · have hstep : buildProgramTable ((some timeStr, some func) :: tl) acc
                    = buildProgramTable tl (btreeInsert acc time func) := by
                  simp only [buildProgramTable, hp]
                rw [hstep]
                exact ih ⟨e, h0, hef⟩ _
          | none =>
              exact ⟨"Timed program keys must be in HH:MM format. Found " ++ timeStr,
                by simp only [buildProgramTable, hp]⟩
      | none, _ => exact ⟨_, rfl⟩
      | some _, none => exact ⟨_, rfl⟩

end TPLemmas2

end HomeServer

namespace HomeServer

section TPLemmas3

variable {α : Type}

theorem mem_of_getLast?_eq {l : List (Nat × α)} {e : Nat × α}
    (h : l.getLast? = some e) : e ∈ l := by
  rcases l with _ | ⟨a, tl⟩
  · simp at h
  · rw [List.getLast?_eq_getLast (a :: tl) (List.cons_ne_nil a tl)] at h
    obtain rfl : e = (a :: tl).getLast (List.cons_ne_nil a tl) :=
      (Option.some_inj.mp h).symm
    exact List.getLast_mem _

theorem getLast?_cons_getD (a : Nat × α) (l : List (Nat × α)) (d : Nat × α) :
    ((a :: l).getLast?).getD d = (l.getLast?).getD a := by
  rcases l with _ | ⟨b, bs⟩
  · simp
  · rw [List.getLast?_cons_cons]
    rcases hbs : (b :: bs).getLast? with _ | e
    · simp at hbs
    · simp

theorem tpSelect_filter (current : Nat) {l : List (Nat × α)} (act : Nat × α)
    (hpw : l.Pairwise (fun a b => a.1 < b.1)) :
    tpSelect current l act
      = ((l.filter (fun p => p.1 < current)).getLast?).getD act := by
  induction l generalizing act with
  | nil => simp [tpSelect]
  | cons hd tl ih =>
      obtain ⟨t, f⟩ := hd
      rw [List.pairwise_cons] at hpw
      obtain ⟨hbnd, htl⟩ := hpw
      unfold tpSelect
      by_cases h1 : t < current
      · rw [if_pos h1, ih (t, f) htl]
        rw [List.filter_cons_of_pos (by simpa using h1)]
        rw [getLast?_cons_getD]
      · rw [if_neg h1]
        rw [List.filter_cons_of_neg (by simpa using h1)]
        have : tl.filter (fun p => p.1 < current) = [] := by
          rw [List.filter_eq_nil_iff]
          intro p hp
          have := hbnd p hp
          simp only [decide_eq_true_eq]
          omega
        rw [this]
        simp

theorem sorted_le_getLast? {l : List (Nat × α)} {x e : Nat × α}
    (hpw : l.Pairwise (fun a b => a.1 < b.1)) (hx : x ∈ l)
    (he : l.getLast? = some e) : x.1 ≤ e.1 := by
  induction l with
  | nil => simp at hx
  | cons a tl ih =>
      rw [List.pairwise_cons] at hpw
      obtain ⟨hbnd, htl⟩ := hpw
      rcases tl with _ | ⟨b, bs⟩
      · simp at he
        rcases List.mem_singleton.mp hx with rfl
        simp [he]
      · rw [List.getLast?_cons_cons] at he
        rcases List.mem_cons.mp hx with rfl | hx
        · exact le_of_lt (hbnd e (mem_of_getLast?_eq he))
        · exact ih htl hx he

end TPLemmas3

end HomeServer

namespace HomeServer

theorem wfEntry_shape {α : Type} {e : Option String × Option α}
    (h : wfEntry e = true) :
    ∃ s f t, e = (some s, some f) ∧ parseHHMM s = some t := by
  obtain ⟨k?, v?⟩ := e
  match k?, v? with
  | some s, some f =>
      rw [wfEntry] at h
      rcases hp : parseHHMM s with _ | t
      · rw [hp] at h; simp at h
      · exact ⟨s, f, t, rfl, hp⟩
  | none, v =>
      rw [show wfEntry ((none : Option String), v) = false from rfl] at h
      cases h
  | some s, none =>
      rw [show wfEntry (some s, (none : Option α)) = false from rfl] at h
      cases h

theorem parsedEntries_ne_nil {α : Type}
    {entries : List (Option String × Option α)} (hne : entries ≠ [])
    (hwf : ∀ e ∈ entries, wfEntry e = true) : parsedEntries entries ≠ [] := by
  obtain ⟨e0, rest, rfl⟩ := List.exists_cons_of_ne_nil hne
  obtain ⟨s, f, t, rfl, hp⟩ := wfEntry_shape (hwf _ (List.mem_cons_self _ _))
  simp [parsedEntries, List.filterMap_cons, hp]

/-- C8 (amended): for every table passed to `timed_program`, (1) an empty
table returns nil; (2) any malformed entry (non-string key, non-function
value, or a key not in `HH:MM` form) makes the whole call fail with an
error — malformed entries are not skipped and no issues set exists here;
(3) when every entry is well-formed, the helper calls and returns the entry
whose key is the greatest parsed time strictly earlier than the current
local time, wrapping to the greatest key overall when no key is strictly
earlier (a key exactly equal to the current time does not count as
"earlier"). -/
theorem timedProgram_code_behavior {α : Type}
    (entries : List (Option String × Option α)) (current : Nat) :
    (entries = [] → timedProgram entries current = .ok none) ∧
    ((∃ e ∈ entries, wfEntry e = false) →
      ∃ msg, timedProgram entries current = .error msg) ∧
    (entries ≠ [] → (∀ e ∈ entries, wfEntry e = true) →
      ∃ k f, timedProgram entries current = .ok (some f) ∧
        (k, f) ∈ parsedEntries entries ∧
        ((k < current ∧
            ∀ p ∈ parsedEntries entries, p.1 < current → p.1 ≤ k) ∨
          ((∀ p ∈ parsedEntries entries, ¬ p.1 < current) ∧
            ∀ p ∈ parsedEntries entries, p.1 ≤ k))) := by
  refine ⟨?_, ?_, ?_⟩
  · rintro rfl
    rfl
  · intro hbad
    obtain ⟨msg, hmsg⟩ := buildProgramTable_error hbad []
    exact ⟨msg, by simp only [timedProgram, hmsg]⟩
  · intro hne hwf
    have hbuild := buildProgramTable_ok hwf ([] : List (Nat × α))
    have hTpw : (tpFold [] (parsedEntries entries)).Pairwise
        (fun a b => a.1 < b.1) := tpFold_pairwise (by simp)
    have hTne : tpFold [] (parsedEntries entries) ≠ [] :=
      tpFold_ne_nil (Or.inr (parsedEntries_ne_nil hne hwf))
    obtain ⟨e, es, hT⟩ := List.exists_cons_of_ne_nil hTne
    have hTP : timedProgram entries current
        = .ok (some (tpSelect current (e :: es)
            ((e :: es).getLast (List.cons_ne_nil e es))).2) := by
      simp only [timedProgram, hbuild, hT]
    rw [hT] at hTpw
    have hsel := tpSelect_filter current
      ((e :: es).getLast (List.cons_ne_nil e es)) hTpw
    -- the selected pair is a member of the table
    have hmemT : tpSelect current (e :: es)
        ((e :: es).getLast (List.cons_ne_nil e es)) ∈ e :: es := by
      rw [hsel]
      rcases hf : ((e :: es).filter (fun p => p.1 < current)).getLast? with _ | ex
      · rw [hf]
        exact List.getLast_mem _
      · rw [hf]
        exact (List.mem_filter.mp (mem_of_getLast?_eq hf)).1
    -- membership in the table implies membership among the parsed entries
    have hmemP : tpSelect current (e :: es)
        ((e :: es).getLast (List.cons_ne_nil e es)) ∈ parsedEntries entries := by
      have hmem : tpSelect current (e :: es)
          ((e :: es).getLast (List.cons_ne_nil e es))
            ∈ tpFold ([] : List (Nat × α)) (parsedEntries entries) := by
        rw [hT]; exact hmemT
      rcases tpFold_mem hmem with h | h
      · simp at h
      · exact h
    -- every parsed key appears among the table keys
    have hkeys : ∀ p ∈ parsedEntries entries,
        ∃ q ∈ e :: es, q.1 = p.1 := by
      intro p hp
      have : p.1 ∈ (tpFold ([] : List (Nat × α)) (parsedEntries entries)).map
          Prod.fst :=
        tpFold_keys (List.mem_map.mpr ⟨p, hp, rfl⟩)
      rw [hT] at this
      obtain ⟨q, hq, hqk⟩ := List.mem_map.mp this
      exact ⟨q, hq, hqk⟩
    refine ⟨(tpSelect current (e :: es)
        ((e :: es).getLast (List.cons_ne_nil e es))).1,
      (tpSelect current (e :: es)
        ((e :: es).getLast (List.cons_ne_nil e es))).2, hTP, by simpa using hmemP, ?_⟩
    rcases hf : ((e :: es).filter (fun p => p.1 < current)).getLast? with _ | ex
    · -- no table key is below the current time: wrap to the greatest key
      right
      have hfnil : (e :: es).filter (fun p => p.1 < current) = [] := by
        rcases hemp : (e :: es).filter (fun p => p.1 < current) with _ | ⟨x, xs⟩
        · exact hemp
        · rw [hemp] at hf
          rcases hx : (x :: xs).getLast? with _ | y
          · rw [List.getLast?_eq_getLast (x :: xs) (List.cons_ne_nil x xs)] at hx
            cases hx
          · rw [hx] at hf
            cases hf
      have hnone : ∀ q ∈ e :: es, ¬ q.1 < current := by
        intro q hq
        have := List.filter_eq_nil_iff.mp hfnil q hq
        simpa using this
      have hselval : tpSelect current (e :: es)
          ((e :: es).getLast (List.cons_ne_nil e es))
          = (e :: es).getLast (List.cons_ne_nil e es) := by
        rw [hsel, hf]
        rfl
      constructor
      · intro p hp
        obtain ⟨q, hq, hqk⟩ := hkeys p hp
        rw [← hqk]
        exact hnone q hq
      · intro p hp
        obtain ⟨q, hq, hqk⟩ := hkeys p hp
        rw [← hqk, hselval]
        exact sorted_le_getLast? hTpw hq
          (List.getLast?_eq_getLast (e :: es) (List.cons_ne_nil e es))
    · -- the greatest key strictly below the current time is selected
      left
      have hselval : tpSelect current (e :: es)
          ((e :: es).getLast (List.cons_ne_nil e es)) = ex := by
        rw [hsel, hf]
        rfl
      have hexmem := List.mem_filter.mp (mem_of_getLast?_eq hf)
      have hexlt : ex.1 < current := by simpa using hexmem.2
      refine ⟨by rw [hselval]; exact hexlt, ?_⟩
      intro p hp hplt
      obtain ⟨q, hq, hqk⟩ := hkeys p hp
      have hqfil : q ∈ (e :: es).filter (fun p => p.1 < current) :=
        List.mem_filter.mpr ⟨hq, by simp [hqk, hplt]⟩
      have hfilpw : ((e :: es).filter (fun p => p.1 < current)).Pairwise
          (fun a b => a.1 < b.1) := hTpw.filter _
      have := sorted_le_getLast? hfilpw hqfil hf
      rw [hselval, ← hqk]
      exact this

end HomeServer

namespace HomeServer

/-- C8 counterexample: (1) a malformed key makes the whole `timed_program`
call fail with an error — nothing is "appended to an issues set and
skipped"; (2) at exactly 12:00 (43200 s), with entries at 08:00 and 12:00,
the entry selected is 08:00's (the loop advances only on keys strictly
below the current time), not 12:00's as "key ≤ now" would require. -/
theorem timed_program_counterexample :
    (timedProgram [(some "oops", some 1), (some "08:00", some 2)] 0
        : Except String (Option Nat))
      = .error "Timed program keys must be in HH:MM format. Found oops" ∧
    (timedProgram [(some "08:00", some 1), (some "12:00", some 2)] 43200
        : Except String (Option Nat))
      = .ok (some 1) := ⟨rfl, rfl⟩

/-- C8 witness: the empty table yields nil; a malformed entry yields an
error; at 12:01 the 12:00 entry (the greatest key strictly below the
current time) is selected. -/
theorem timed_program_witness :
    (timedProgram ([] : List (Option String × Option Nat)) 600 = .ok none) ∧
    (∃ msg, (timedProgram [((none : Option String), some 7)] 600
        : Except String (Option Nat)) = .error msg) ∧
    (∃ k f, (timedProgram [(some "08:00", some 1), (some "12:00", some 2)] 43260
        : Except String (Option Nat)) = .ok (some f) ∧
      (k, f) ∈ parsedEntries [(some "08:00", some 1), (some "12:00", some 2)] ∧
      ((k < 43260 ∧
          ∀ p ∈ parsedEntries [(some "08:00", some 1), (some "12:00", some 2)],
            p.1 < 43260 → p.1 ≤ k) ∨
        ((∀ p ∈ parsedEntries [(some "08:00", some 1), (some "12:00", some 2)],
            ¬ p.1 < 43260) ∧
          ∀ p ∈ parsedEntries [(some "08:00", some 1), (some "12:00", some 2)],
            p.1 ≤ k))) :=
  ⟨(timedProgram_code_behavior ([] : List (Option String × Option Nat)) 600).1 rfl,
   (timedProgram_code_behavior [((none : Option String), some 7)] 600).2.1
      ⟨_, List.mem_cons_self _ _, rfl⟩,
   (timedProgram_code_behavior
      [(some "08:00", some 1), (some "12:00", some 2)] 43260).2.2
      (by simp) (by decide)⟩

end HomeServer

namespace HomeServer

/-! The MQTT topic-routing trie of `src/mqtt/handler.rs`.  `Route` mirrors
the Rust enum (`Leaf(Vec<Handler>)` / `Node { handlers, children }`), with
the `HashMap<String, Route>` of children as an association list with unique
keys.  Handlers are identified by values of an arbitrary type `H`; a
dispatched invocation is recorded as the pair (handler, topic argument). -/

inductive Route (H : Type) : Type
  | leaf (handlers : List H)
  | node (handlers : List H) (children : List (String × Route H))

/-- `handlers_of`. -/
def handlersOf {H : Type} : Route H → List H
  | .leaf handlers => handlers
  | .node handlers _ => handlers

/-- The children seen through `make_node`: a `Leaf` has none. -/
def childrenOf {H : Type} : Route H → List (String × Route H)
  | .leaf _ => []
  | .node _ children => children

/-- `HashMap::get` on the children map. -/
def assocFind {H : Type} : List (String × Route H) → String → Option (Route H)
  | [], _ => none
  | (k, v) :: rest, s => if k = s then some v else assocFind rest s

/-- `HashMap::entry(..).or_insert_with(..)` followed by writing the slot:
replace the value under an existing key, or add the binding. -/
def assocUpdate {H : Type} :
    List (String × Route H) → String → Route H → List (String × Route H)
  | [], s, v => [(s, v)]
  | (k, w) :: rest, s, v =>
      if k = s then (s, v) :: rest else (k, w) :: assocUpdate rest s v

/-- `handlers_of_mut(route).push(handler)` (the empty-path case of
`insert`). -/
def Route.push {H : Type} : Route H → H → Route H
  | .leaf hs, h => .leaf (hs ++ [h])
  | .node hs cs, h => .node (hs ++ [h]) cs

/-- `insert` (`src/mqtt/handler.rs` lines 85–102): on an empty path push the
handler here; otherwise `make_node`, fetch-or-create the child for the first
segment and recurse on the rest. -/
def Route.insert {H : Type} : Route H → List String → H → Route H
  | r, [], h => Route.push r h
  | r, stem :: rest, h =>
      Route.node (handlersOf r)
        (assocUpdate (childrenOf r) stem
          (Route.insert ((assocFind (childrenOf r) stem).getD (Route.leaf []))
            rest h))

/-- `sub_tree`: only a `Node` has children. -/
def subTree {H : Type} (r : Route H) (stem : String) : Option (Route H) :=
  match r with
  | .node _ children => assocFind children stem
  | _ => none

/-- `execute`: run every handler at this node with the full topic. -/
def execute {H : Type} (r : Route H) (topic : String) : List (H × String) :=
  (handlersOf r).map (fun h => (h, topic))

/-- `dispatch` (`src/mqtt/handler.rs` lines 104–123): on the empty path,
execute here; otherwise execute the handlers of the `*` child (if any), then
descend into the literal child of the first segment (if any). -/
def dispatchR {H : Type} : Route H → List String → String → List (H × String)
  | r, [], topic => execute r topic
  | r, stem :: leaf, topic =>
      (match subTree r "*" with
       | some route => execute route topic
       | none => []) ++
      (match subTree r stem with
       | some route => dispatchR route leaf topic
       | none => [])

/-- The path segmentation performed by the repeated `split_once('/')` in
`insert`/`dispatch`: segments are separated by `/`; a single trailing `/`
produces no trailing empty segment (the recursion sees the empty string and
stops); the empty path has no segments. -/
def segsOfAux : List Char → List Char → List String
  | [], cur => [String.mk cur.reverse]
  | '/' :: rest, cur =>
      match rest with
      | [] => [String.mk cur.reverse]
      | _ => String.mk cur.reverse :: segsOfAux rest []
  | c :: rest, cur => segsOfAux rest (c :: cur)

/-- Segments of a topic string. -/
def segsOf (t : String) : List String :=
  match t.data with
  | [] => []
  | cs => segsOfAux cs []

/-- `Router::dispatch(topic, payload)`: dispatch from the root over the
topic's segments, handing every handler the full topic. -/
def dispatchTopic {H : Type} (root : Route H) (topic : String) :
    List (H × String) :=
  dispatchR root (segsOf topic) topic

/-- A router built by registering `(pattern, handler)` pairs in order on the
fresh `Router::new()` root. -/
def buildRouter {H : Type} (regs : List (List String × H)) : Route H :=
  regs.foldl (fun r ph => Route.insert r ph.1 ph.2) (Route.leaf [])

end HomeServer



namespace HomeServer

section RouterLemmas

variable {H : Type}

theorem handlersOf_push (r : Route H) (h : H) :
    handlersOf (Route.push r h) = handlersOf r ++ [h] := by
  cases r <;> rfl

theorem subTree_push (r : Route H) (h : H) (s : String) :
    subTree (Route.push r h) s = subTree r s := by
  cases r <;> rfl

theorem subTree_eq_assocFind (r : Route H) (s : String) :
    subTree r s = assocFind (childrenOf r) s := by
  cases r <;> rfl

theorem assocFind_update (cs : List (String × Route H)) (s s' : String)
    (v : Route H) :
    assocFind (assocUpdate cs s v) s'
      = if s' = s then some v else assocFind cs s' := by
  induction cs with
  | nil =>
      by_cases h : s' = s
      · subst h; simp [assocUpdate, assocFind]
      · simp [assocUpdate, assocFind, h, Ne.symm h]
  | cons hd tl ih =>
      obtain ⟨k, w⟩ := hd
      by_cases hk : k = s
      · subst hk
        simp only [assocUpdate, if_pos rfl]
        by_cases h : s' = k
        · subst h; simp [assocFind]
        · simp [assocFind, h, Ne.symm h]
      · simp only [assocUpdate, if_neg hk, assocFind, ih]
        by_cases h : k = s'
        · have hne : ¬ s' = s := fun hh => hk (h.trans hh)
          simp [h, hne]
        · simp [h]

theorem subTree_insert (r : Route H) (s s' : String) (ps : List String)
    (h : H) :
    subTree (Route.insert r (s :: ps) h) s'
      = if s' = s then
          some (Route.insert ((subTree r s).getD (Route.leaf [])) ps h)
        else subTree r s' := by
  rw [show Route.insert r (s :: ps) h
      = Route.node (handlersOf r)
          (assocUpdate (childrenOf r) s
            (Route.insert ((assocFind (childrenOf r) s).getD (Route.leaf []))
              ps h)) from rfl]
  rw [show subTree (Route.node (handlersOf r) (assocUpdate (childrenOf r) s
      (Route.insert ((assocFind (childrenOf r) s).getD (Route.leaf [])) ps h))) s'
      = assocFind (assocUpdate (childrenOf r) s
          (Route.insert ((assocFind (childrenOf r) s).getD (Route.leaf [])) ps h)) s'
    from rfl]
  rw [assocFind_update, subTree_eq_assocFind r s', subTree_eq_assocFind r s]

theorem handlersOf_insert_cons (r : Route H) (s : String) (ps : List String)
    (h : H) :
    handlersOf (Route.insert r (s :: ps) h) = handlersOf r := rfl

theorem dispatch_leaf_nil (τ : List String) (topic : String) :
    dispatchR (Route.leaf ([] : List H)) τ topic = [] := by
  cases τ with
  | nil => rfl
  | cons a τ' => rfl

end RouterLemmas

end HomeServer

namespace HomeServer

section RouterLemmas2

variable {H : Type}

/-- The `if let Some(route) = sub_tree(..)` around `execute`. -/
def executeOpt : Option (Route H) → String → List (H × String)
  | some route, topic => execute route topic
  | none, _ => []

/-- The `if let Some(route) = sub_tree(..)` around the recursive
`dispatch`. -/
def dispatchOpt : Option (Route H) → List String → String → List (H × String)
  | some route, τ, topic => dispatchR route τ topic
  | none, _, _ => []

theorem dispatchR_cons_eq (r : Route H) (stem : String) (rest : List String)
    (topic : String) :
    dispatchR r (stem :: rest) topic
      = executeOpt (subTree r "*") topic
          ++ dispatchOpt (subTree r stem) rest topic := by
  rcases h1 : subTree r "*" with _ | a <;>
    rcases h2 : subTree r stem with _ | b <;>
      simp [dispatchR, executeOpt, dispatchOpt, h1, h2]

theorem execute_insert_nil (o : Option (Route H)) (h : H) (topic : String) :
    execute (Route.insert (o.getD (Route.leaf [])) [] h) topic
      = executeOpt o topic ++ [(h, topic)] := by
  cases o with
  | none => rfl
  | some c => simp [Route.insert, execute, executeOpt, handlersOf_push]

theorem execute_insert_cons (o : Option (Route H)) (q : String)
    (qs : List String) (h : H) (topic : String) :
    execute (Route.insert (o.getD (Route.leaf [])) (q :: qs) h) topic
      = executeOpt o topic := by
  cases o with
  | none => rfl
  | some c => rfl

theorem dispatch_getD (o : Option (Route H)) (τ : List String)
    (topic : String) :
    dispatchR (o.getD (Route.leaf [])) τ topic = dispatchOpt o τ topic := by
  cases o with
  | none => exact dispatch_leaf_nil τ topic
  | some c => rfl

theorem pattern_cons_iff (s t : String) (ps τ' : List String) :
    (∃ k, k < (t :: τ').length ∧ s :: ps = (t :: τ').take k ++ ["*"]) ↔
      ((s = "*" ∧ ps = []) ∨
        (s = t ∧ ∃ j, j < τ'.length ∧ ps = τ'.take j ++ ["*"])) := by
  constructor
  · rintro ⟨k, hk, he⟩
    cases k with
    | zero =>
        simp only [List.take_zero, List.nil_append, List.cons.injEq] at he
        exact Or.inl he
    | succ j =>
        simp only [List.take_succ_cons, List.cons_append, List.cons.injEq] at he
        exact Or.inr ⟨he.1, j, Nat.lt_of_succ_lt_succ (by simpa using hk), he.2⟩
  · rintro (⟨rfl, rfl⟩ | ⟨rfl, j, hj, rfl⟩)
    · exact ⟨0, by simp, by simp⟩
    · exact ⟨j + 1, by simpa using hj, by simp⟩

end RouterLemmas2

end HomeServer

namespace HomeServer

theorem mem_dispatch_insert {H : Type} (x : H × String) :
    ∀ (τ : List String) (r : Route H) (p : List String) (h : H)
      (topic : String),
    x ∈ dispatchR (Route.insert r p h) τ topic ↔
      x ∈ dispatchR r τ topic ∨
        (x = (h, topic) ∧
          (p = τ ∨ ∃ k, k < τ.length ∧ p = τ.take k ++ ["*"])) := by
  intro τ
  induction τ with
  | nil =>
      intro r p h topic
      cases p with
      | nil =>
          simp only [Route.insert, dispatchR, execute, handlersOf_push,
            List.map_append, List.mem_append, List.map_cons, List.map_nil,
            List.mem_singleton, List.length_nil, eq_self_iff_true, true_or,
            and_true]
      | cons s ps =>
          have hne : ¬ ∃ k, k < ([] : List String).length ∧
              s :: ps = ([] : List String).take k ++ ["*"] := by
            rintro ⟨k, hk, _⟩
            simp at hk
          simp only [dispatchR, execute, handlersOf_insert_cons]
          have hne2 : s :: ps ≠ ([] : List String) := by simp
          tauto
  | cons t τ' ih =>
      intro r p h topic
      have hnetake : ¬ ∃ k, k < (t :: τ').length ∧
          ([] : List String) = (t :: τ').take k ++ ["*"] := by
        rintro ⟨k, _, hk⟩
        exact absurd hk.symm (by simp)
      cases p with
      | nil =>
          rw [show Route.insert r [] h = Route.push r h from rfl]
          rw [dispatchR_cons_eq, dispatchR_cons_eq, subTree_push, subTree_push]
          constructor
          · exact Or.inl
          · rintro (hx | ⟨rfl, (h0 | ⟨k, hk, h1⟩)⟩)
            · exact hx
            · cases h0
            · exact absurd h1.symm (by simp)
      | cons s ps =>
          have hstar := subTree_insert r s "*" ps h
          have hlit := subTree_insert r s t ps h
          rw [dispatchR_cons_eq, dispatchR_cons_eq, hstar, hlit,
            pattern_cons_iff]
          by_cases hs : ("*" : String) = s
          · rw [if_pos hs]
            by_cases ht : t = s
            · -- s = "*" = t
              rw [if_pos ht]
              subst hs
              subst ht
              cases ps with
              | nil =>
                  rw [show executeOpt
                        (some (Route.insert ((subTree r "*").getD
                          (Route.leaf [])) [] h)) topic
                      = execute (Route.insert ((subTree r "*").getD
                          (Route.leaf [])) [] h) topic from rfl]
                  rw [show dispatchOpt
                        (some (Route.insert ((subTree r "*").getD
                          (Route.leaf [])) [] h)) τ' topic
                      = dispatchR (Route.insert ((subTree r "*").getD
                          (Route.leaf [])) [] h) τ' topic from rfl]
                  rw [execute_insert_nil]
                  simp only [List.mem_append, List.mem_singleton]
                  rw [ih ((subTree r "*").getD (Route.leaf [])) [] h topic]
                  rw [dispatch_getD]
                  simp only [List.cons.injEq, eq_self_iff_true, true_and,
                    and_true]
                  have hne3 : ¬ ∃ k, k < τ'.length ∧
                      ([] : List String) = τ'.take k ++ ["*"] := by
                    rintro ⟨k, _, hk⟩
                    exact absurd hk.symm (by simp)
                  tauto
              | cons q qs =>
                  rw [show executeOpt
                        (some (Route.insert ((subTree r "*").getD
                          (Route.leaf [])) (q :: qs) h)) topic
                      = execute (Route.insert ((subTree r "*").getD
                          (Route.leaf [])) (q :: qs) h) topic from rfl]
                  rw [show dispatchOpt
                        (some (Route.insert ((subTree r "*").getD
                          (Route.leaf [])) (q :: qs) h)) τ' topic
                      = dispatchR (Route.insert ((subTree r "*").getD
                          (Route.leaf [])) (q :: qs) h) τ' topic from rfl]
                  rw [execute_insert_cons]
                  simp only [List.mem_append]
                  rw [ih ((subTree r "*").getD (Route.leaf [])) (q :: qs) h topic]
                  rw [dispatch_getD]
                  simp only [List.cons.injEq, eq_self_iff_true, true_and]
                  have hne3 : q :: qs ≠ ([] : List String) := by simp
                  tauto
            · -- s = "*", t ≠ s
              rw [if_neg ht]
              subst hs
              have ht2 : ¬ (("*" : String) = t) := fun hh => ht hh.symm
              cases ps with
              | nil =>
                  rw [show executeOpt
                        (some (Route.insert ((subTree r "*").getD
                          (Route.leaf [])) [] h)) topic
                      = execute (Route.insert ((subTree r "*").getD
                          (Route.leaf [])) [] h) topic from rfl]
                  rw [execute_insert_nil]
                  simp only [List.mem_append, List.mem_singleton,
                    List.cons.injEq, eq_self_iff_true, true_and, and_true]
                  tauto
              | cons q qs =>
                  rw [show executeOpt
                        (some (Route.insert ((subTree r "*").getD
                          (Route.leaf [])) (q :: qs) h)) topic
                      = execute (Route.insert ((subTree r "*").getD
                          (Route.leaf [])) (q :: qs) h) topic from rfl]
                  rw [execute_insert_cons]
                  simp only [List.mem_append, List.cons.injEq,
                    eq_self_iff_true, true_and]
                  have hne3 : q :: qs ≠ ([] : List String) := by simp
                  tauto
          · rw [if_neg hs]
            by_cases ht : t = s
            · -- s = t, s ≠ "*"
              rw [if_pos ht]
              subst ht
              have ht2 : ¬ (t = "*") := fun hh => hs hh.symm
              rw [show dispatchOpt
                    (some (Route.insert ((subTree r t).getD
                      (Route.leaf [])) ps h)) τ' topic
                  = dispatchR (Route.insert ((subTree r t).getD
                      (Route.leaf [])) ps h) τ' topic from rfl]
              simp only [List.mem_append]
              rw [ih ((subTree r t).getD (Route.leaf [])) ps h topic]
              rw [dispatch_getD]
              simp only [List.cons.injEq, eq_self_iff_true, true_and]
              tauto
            · -- s ≠ "*", s ≠ t
              rw [if_neg ht]
              have ht2 : ¬ (s = t) := fun hh => ht hh.symm
              have hs2 : ¬ (s = "*") := fun hh => hs hh.symm
              simp only [List.mem_append, List.cons.injEq]
              tauto

end HomeServer

namespace HomeServer

theorem mem_dispatch_fold {H : Type} (x : H × String)
    (regs : List (List String × H)) :
    ∀ (r0 : Route H) (τ : List String) (topic : String),
    x ∈ dispatchR (regs.foldl (fun r ph => Route.insert r ph.1 ph.2) r0) τ topic ↔
      x ∈ dispatchR r0 τ topic ∨
        ∃ p hh, (p, hh) ∈ regs ∧ x = (hh, topic) ∧
          (p = τ ∨ ∃ k, k < τ.length ∧ p = τ.take k ++ ["*"]) := by
  induction regs with
  | nil =>
      intro r0 τ topic
      simp
  | cons reg rest ih =>
      intro r0 τ topic
      obtain ⟨p0, h0⟩ := reg
      rw [show (((p0, h0) :: rest).foldl
            (fun r ph => Route.insert r ph.1 ph.2) r0)
          = rest.foldl (fun r ph => Route.insert r ph.1 ph.2)
              (Route.insert r0 p0 h0) from rfl]
      rw [ih (Route.insert r0 p0 h0) τ topic]
      rw [mem_dispatch_insert x τ r0 p0 h0 topic]
      constructor
      · rintro ((hx | ⟨hx, hcond⟩) | ⟨p, hh, hmem, hx, hcond⟩)
        · exact Or.inl hx
        · exact Or.inr ⟨p0, h0, List.mem_cons_self _ _, hx, hcond⟩
        · exact Or.inr ⟨p, hh, List.mem_cons_of_mem _ hmem, hx, hcond⟩
      · rintro (hx | ⟨p, hh, hmem, hx, hcond⟩)
        · exact Or.inl (Or.inl hx)
        · rcases List.mem_cons.mp hmem with heq | hmem
          · obtain ⟨rfl, rfl⟩ := Prod.mk.injEq .. ▸ heq
            exact Or.inl (Or.inr ⟨hx, hcond⟩)
          · exact Or.inr ⟨p, hh, hmem, hx, hcond⟩

/-- C9 (amended): dispatching topic `t` over a router built from a list of
`(pattern, handler)` registrations invokes exactly (a) the handlers whose
pattern equals the literal sequence of `t`'s `/`-separated segments (a `*`
in the pattern matching only a literal `*` segment there), and (b) the
handlers whose pattern is a proper prefix of `t`'s segments followed by a
final `*` — that trailing `*` matches the entire nonempty remainder of the
topic, not exactly one segment, and a pattern with segments after a `*`
never fires.  Every invoked handler receives the full topic. -/
theorem router_dispatch_characterization {H : Type}
    (regs : List (List String × H)) (topic : String) (x : H × String) :
    x ∈ dispatchTopic (buildRouter regs) topic ↔
      (x.2 = topic ∧ ∃ p, (p, x.1) ∈ regs ∧
        (p = segsOf topic ∨
          ∃ k, k < (segsOf topic).length ∧
            p = (segsOf topic).take k ++ ["*"])) := by
  rw [show dispatchTopic (buildRouter regs) topic
      = dispatchR (regs.foldl (fun r ph => Route.insert r ph.1 ph.2)
          (Route.leaf [])) (segsOf topic) topic from rfl]
  rw [mem_dispatch_fold x regs (Route.leaf []) (segsOf topic) topic]
  rw [dispatch_leaf_nil]
  constructor
  · rintro (hx | ⟨p, hh, hmem, rfl, hcond⟩)
    · cases hx
    · exact ⟨rfl, p, hmem, hcond⟩
  · rintro ⟨hx2, p, hmem, hcond⟩
    refine Or.inr ⟨p, x.1, hmem, ?_, hcond⟩
    rw [← hx2]

/-- C9 counterexample: with a handler 0 registered under `a/*` and a handler
1 under `a/*/c`, dispatching `a/b/c` invokes handler 0 (whose `*` swallows
the two remaining segments `b/c`) and NOT handler 1 (dispatch never descends
through a `*` edge) — the opposite of "`*` matches exactly one segment". -/
theorem router_wildcard_counterexample :
    dispatchTopic (buildRouter [(segsOf "a/*", (0 : Nat)), (segsOf "a/*/c", 1)])
        "a/b/c" = [(0, "a/b/c")] ∧
    segsOf "a/*" = ["a", "*"] ∧
    segsOf "a/*/c" = ["a", "*", "c"] ∧
    segsOf "a/b/c" = ["a", "b", "c"] := by
  refine ⟨by decide, by decide, by decide, by decide⟩

end HomeServer
